import Mathlib

/-!
Verification of a character-frequency benchmarking program.

The program loads the lines of a text file, counts character occurrences
(possibly splitting the lines into contiguous chunks processed in parallel
and merging the per-chunk counts), measures the average running time over a
number of reruns and over a sweep of thread counts, and optionally reports
the most frequent characters.

The embedding below models Rust strings as lists of characters (`Line`),
the `HashMap<char, usize>` counters as association lists with unique keys
(`Counter`, built only through `addTo`, the translation of
`*counter.entry(c).or_default() += v`), panics as `Option.none`, and the
text printed to standard output as a list of structured events
(`OutEvent`).  Wall-clock durations are not modelled; a timing line is
recorded as the event `OutEvent.timing n` carrying the thread count it
reports on.
-/

set_option autoImplicit false

namespace CharBench

/-- A line of text: a Rust `String` viewed as its sequence of `char`s. -/
abbrev Line := List Char

/-- A character-count mapping: the model of `HashMap<char, usize>` as an
association list.  All mappings built by the program arise from `[]` via
`addTo`, which keeps keys unique. -/
abbrev Counter := List (Char × Nat)

/-- Value lookup in a counter; absent keys read as `0`, matching
`HashMap::entry(c).or_default()`. -/
def getCount : Counter → Char → Nat
  | [], _ => 0
  | (k, v) :: rest, c => if k = c then v else getCount rest c

/-- The keys of a counter, in insertion order. -/
def keysOf (m : Counter) : List Char := m.map Prod.fst

/-- `addTo m c v` models `*m.entry(c).or_default() += v`: bump the entry of
`c` if present, otherwise append a fresh entry `(c, v)`. -/
def addTo : Counter → Char → Nat → Counter
  | [], c, v => [(c, v)]
  | (k, n) :: rest, c, v =>
      if k = c then (k, n + v) :: rest else (k, n) :: addTo rest c v

/-- Number of occurrences of the character `c` in one line. -/
def occOf (c : Char) : Line → Nat
  | [] => 0
  | d :: l => (if d = c then 1 else 0) + occOf c l

/-- Number of occurrences of `c` across all lines of `input`. -/
def countOcc (c : Char) (input : List Line) : Nat :=
  (input.map (occOf c)).sum

/-- One line of the inner loop of `count_chars`: fold `addTo · · 1` over the
characters of the line. -/
def countLine (m : Counter) (l : Line) : Counter :=
  l.foldl (fun m c => addTo m c 1) m

/-- The double loop of `count_chars`, starting from an arbitrary
accumulator. -/
def countFrom (m : Counter) (input : List Line) : Counter :=
  input.foldl countLine m

/-- Translation of `count_chars`: starting from an empty map, visit every
character of every line and bump its entry. -/
def count_chars (input : List Line) : Counter := countFrom [] input

/-- Merging one partial counter into the accumulator: the body of the
`while let Ok(counter_part) = receiver.recv()` loop of
`count_chars_parallel`, which does `*counter.entry(*key).or_default() += value`
for every entry of the received part. -/
def mergeCounts (acc part : Counter) : Counter :=
  part.foldl (fun m p => addTo m p.1 p.2) acc

/-- Fuel-driven helper for `chunksOf`: the fuel (instantiated with the
length of the list) makes the recursion structural, so that concrete
instances evaluate inside the kernel. -/
def chunksOfAux {α : Type} : Nat → Nat → List α → List (List α)
  | 0, _, _ => []
  | fuel + 1, bs, l =>
      if bs = 0 ∨ l.length = 0 then []
      else l.take bs :: chunksOfAux fuel bs (l.drop bs)

/-- Translation of `slice::chunks`: split `l` into consecutive chunks of
`bs` elements, the last one possibly shorter (see `chunksOf_eq` for the
defining recurrence).  Rust panics when `bs = 0`; the caller
`count_chars_parallel` models that panic, so the `bs = 0` case of this
total function is never reached from the embedding. -/
def chunksOf {α : Type} (bs : Nat) (l : List α) : List (List α) :=
  chunksOfAux l.length bs l

/-- Translation of `count_chars_parallel`: compute
`BLCKSZ = (input.len() + n - 1) / n`, split `input` into chunks of that
size, count each chunk with `count_chars`, and merge the partial counters
into an initially empty accumulator.  `slice::chunks` panics when
`BLCKSZ = 0` (which happens exactly when `input.len() + n - 1 < n`, in
particular for an empty input), modelled by `none`. -/
def count_chars_parallel (input : List Line) (n : Nat) : Option Counter :=
  if (input.length + n - 1) / n = 0 then none
  else
    some ((chunksOf ((input.length + n - 1) / n) input).foldl
      (fun acc chunk => mergeCounts acc (count_chars chunk)) [])

/-- One line printed to standard output, in structured form.  `timing n`
stands for the line reporting the average duration measured with `n`
threads (the duration itself is wall-clock time and is not modelled);
`statsEntry c k` stands for the top-K report line giving character `c`
with `k` occurrences. -/
inductive OutEvent where
  | warnMaxZero : OutEvent
  | warnRerunsZero : OutEvent
  | warnStatsZero : OutEvent
  | timing : Nat → OutEvent
  | statsHeader : OutEvent
  | statsEntry : Char → Nat → OutEvent
deriving DecidableEq, Repr

/-- The rerun loop of `benchmark`: `counter` starts as `None` and each of
the `reruns` iterations overwrites it with a fresh
`count_chars_parallel` result.  The first component counts how many times
`count_chars_parallel` was invoked; the second is `none` if an invocation
panicked, otherwise `some` of the final value of the `counter` variable. -/
def runReruns (input : List Line) (n : Nat) : Nat → Nat × Option (Option Counter)
  | 0 => (0, some none)
  | k + 1 =>
      match runReruns input n k with
      | (calls, none) => (calls, none)
      | (calls, some _) =>
          match count_chars_parallel input n with
          | none => (calls + 1, none)
          | some m => (calls + 1, some (some m))

/-- Translation of `benchmark` (minus the wall-clock measurement): run the
parallel counter `reruns` times and `unwrap` the last result.  `none`
models a panic, either inside `count_chars_parallel` or from
`counter.unwrap()` when `reruns = 0`. -/
def benchmark (input : List Line) (n reruns : Nat) : Option Counter :=
  match runReruns input n reruns with
  | (_, some (some m)) => some m
  | _ => none

/-- The sweep loop of `benchmark_all`, run for thread counts `1` to `k`.
Returns the list of thread counts passed to `benchmark`, the timing lines
printed, and (`none` modelling a panic) the final value of the `counter`
variable. -/
def sweepLoop (input : List Line) (reruns : Nat) :
    Nat → List Nat × List OutEvent × Option (Option Counter)
  | 0 => ([], [], some none)
  | k + 1 =>
      match sweepLoop input reruns k with
      | (calls, evs, none) => (calls, evs, none)
      | (calls, evs, some _) =>
          match benchmark input (k + 1) reruns with
          | none => (calls ++ [k + 1], evs, none)
          | some m =>
              (calls ++ [k + 1], evs ++ [OutEvent.timing (k + 1)], some (some m))

/-- Translation of `benchmark_all`: sweep the thread counts `1..=maxT`,
printing one timing line per thread count, and `unwrap` the counter kept
from the last iteration.  The second component is `none` when the program
panics (inside a benchmark run, or in `counter.unwrap()` when
`maxT = 0`). -/
def benchmark_all (input : List Line) (maxT reruns : Nat) :
    List OutEvent × Option Counter :=
  match sweepLoop input reruns maxT with
  | (_, evs, some (some m)) => (evs, some m)
  | (_, evs, _) => (evs, none)

/-- The comparison key of `freq.sort_unstable_by_key(|&(_, n)| n)`:
compare entries by their count. -/
def countLE (p q : Char × Nat) : Prop := p.2 ≤ q.2

instance : DecidableRel countLE :=
  fun p q => inferInstanceAs (Decidable (p.2 ≤ q.2))

instance : IsTotal (Char × Nat) countLE :=
  ⟨fun a b => Nat.le_total a.2 b.2⟩

instance : IsTrans (Char × Nat) countLE :=
  ⟨fun _ _ _ hab hbc => Nat.le_trans hab hbc⟩

/-- The sort of the reporter: ascending by occurrence count.  (Rust uses an
unstable sort and an arbitrary `HashMap` iteration order; ties between
equal counts are unspecified there, and the embedding fixes one
determinisation.) -/
def sortByCount (l : Counter) : Counter := List.insertionSort countLE l

/-- Translation of the reporting step of `main`: when `--stats <rank>` is
present, warn if the rank is `0`, collect the mapping into a vector, sort
it ascending by count, then print the header and the first
`max(rank, 1)` entries of the reversed (descending) vector.  When the
flag is absent, print nothing. -/
def reporter (stats : Counter) (rank : Option Nat) : List OutEvent :=
  match rank with
  | none => []
  | some r =>
      (if r = 0 then [OutEvent.warnStatsZero] else [])
        ++ [OutEvent.statsHeader]
        ++ ((sortByCount stats).reverse.take (Nat.max r 1)).map
            (fun p => OutEvent.statsEntry p.1 p.2)

/-- Translation of `main` after the file has been loaded into `lines`:
normalise the `--max` and `--reruns` values (a `0` is corrected to `1`
with a printed warning), run the benchmark sweep, and optionally report
the top characters.  The first component is everything printed to
standard output; the second is `some ()` on normal completion and `none`
when the program panics. -/
def mainModel (lines : List Line) (maxArg rerunsArg : Nat)
    (statsArg : Option Nat) : List OutEvent × Option Unit :=
  let maxWarn : List OutEvent :=
    if maxArg = 0 then [OutEvent.warnMaxZero] else []
  let maxT := if maxArg = 0 then 1 else maxArg
  let rerWarn : List OutEvent :=
    if rerunsArg = 0 then [OutEvent.warnRerunsZero] else []
  let reruns := if rerunsArg = 0 then 1 else rerunsArg
  match benchmark_all lines maxT reruns with
  | (evs, none) => (maxWarn ++ rerWarn ++ evs, none)
  | (evs, some stats) =>
      (maxWarn ++ rerWarn ++ evs ++ reporter stats statsArg, some ())

/-- Split a character stream at every newline character.  The result is
always non-empty; every element but the last was terminated by a
newline in the stream, and the last element is the (possibly empty)
tail after the final newline. -/
def splitNl : List Char → List (List Char)
  | [] => [[]]
  | c :: cs =>
      if c = '\n' then [] :: splitNl cs
      else
        match splitNl cs with
        | [] => [[c]]
        | s :: ss => (c :: s) :: ss

/-- Drop one trailing carriage return, as `BufRead::lines` does after
removing the newline terminator of a line. -/
def stripCR (l : List Char) : List Char :=
  if l.getLast? = some '\r' then l.dropLast else l

/-- Translation of `load_file` on the character contents of the file:
`BufReader::lines` yields every newline-terminated segment with its
newline (and one carriage return directly before it) removed, plus the
segment after the last newline if it is non-empty (that final segment
keeps a trailing carriage return, since only a newline triggers the
stripping). -/
def load_file (contents : List Char) : List Line :=
  (splitNl contents).dropLast.map stripCR ++
    (match (splitNl contents).getLast? with
     | some [] => []
     | some l => [l]
     | none => [])

theorem getCount_addTo (m : Counter) (c d : Char) (v : Nat) :
    getCount (addTo m c v) d = getCount m d + (if c = d then v else 0) := by
  induction m with
  | nil => simp [addTo, getCount]
  | cons p rest ih =>
      obtain ⟨k, n⟩ := p
      by_cases hkc : k = c
      · subst hkc
        by_cases hkd : k = d <;> simp [addTo, getCount, hkd]
      · by_cases hkd : k = d
        · subst hkd
          have hcd : ¬ c = k := fun h => hkc h.symm
          simp [addTo, getCount, hkc, hcd]
        · simp [addTo, getCount, hkc, hkd, ih]

theorem keysOf_addTo (m : Counter) (c : Char) (v : Nat) :
    keysOf (addTo m c v) =
      if c ∈ keysOf m then keysOf m else keysOf m ++ [c] := by
  induction m with
  | nil => simp [addTo, keysOf]
  | cons p rest ih =>
      obtain ⟨k, n⟩ := p
      by_cases hkc : k = c
      · subst hkc
        simp [addTo, keysOf]
      · have hck : ¬ c = k := fun h => hkc h.symm
        have ih' := ih
        by_cases hmem : c ∈ keysOf rest <;>
          simp only [keysOf] at ih' hmem ⊢ <;>
          simp [addTo, hkc, hck, hmem, ih']

theorem nodup_keysOf_addTo {m : Counter} (c : Char) (v : Nat)
    (h : (keysOf m).Nodup) : (keysOf (addTo m c v)).Nodup := by
  rw [keysOf_addTo]
  by_cases hmem : c ∈ keysOf m
  · rw [if_pos hmem]; exact h
  · rw [if_neg hmem]
    refine List.Nodup.append h (List.nodup_singleton c) ?_
    intro a ha hb
    rw [List.mem_singleton] at hb
    subst hb
    exact hmem ha

theorem pos_addTo {m : Counter} {c : Char} {v : Nat}
    (hm : ∀ p ∈ m, 0 < p.2) (hv : 0 < v) :
    ∀ p ∈ addTo m c v, 0 < p.2 := by
  induction m with
  | nil => simpa [addTo] using hv
  | cons q rest ih =>
      obtain ⟨k, n⟩ := q
      by_cases hkc : k = c
      · subst hkc
        intro p hp
        rcases (by simpa [addTo] using hp : p = (k, n + v) ∨ p ∈ rest) with h | h
        · subst h; exact Nat.lt_of_lt_of_le hv (Nat.le_add_left _ _)
        · exact hm p (List.mem_cons_of_mem _ h)
      · intro p hp
        rcases (by simpa [addTo, hkc] using hp :
            p = (k, n) ∨ p ∈ addTo rest c v) with h | h
        · subst h; exact hm (k, n) (List.mem_cons_self _ _)
        · exact ih (fun q hq => hm q (List.mem_cons_of_mem _ hq)) p h

theorem getCount_eq_zero_of_not_mem {m : Counter} {c : Char}
    (h : c ∉ keysOf m) : getCount m c = 0 := by
  induction m with
  | nil => rfl
  | cons p rest ih =>
      obtain ⟨k, n⟩ := p
      have hk : ¬ k = c := by
        intro hk; exact h (by simp [keysOf, hk])
      have hrest : c ∉ keysOf rest := fun hr => h (by simp [keysOf] at hr ⊢; tauto)
      simp [getCount, hk, ih hrest]

theorem mem_keysOf_iff_pos {m : Counter} (hm : ∀ p ∈ m, 0 < p.2) (c : Char) :
    c ∈ keysOf m ↔ 0 < getCount m c := by
  induction m with
  | nil => simp [keysOf, getCount]
  | cons p rest ih =>
      obtain ⟨k, n⟩ := p
      by_cases hk : k = c
      · subst hk
        have : 0 < n := hm (k, n) (List.mem_cons_self _ _)
        simp [keysOf, getCount, this]
      · have hrest : ∀ p ∈ rest, 0 < p.2 :=
          fun q hq => hm q (List.mem_cons_of_mem _ hq)
        have hck : ¬ c = k := fun h => hk h.symm
        show c ∈ k :: keysOf rest ↔ 0 < (if k = c then n else getCount rest c)
        rw [if_neg hk]
        simp [List.mem_cons, hck, ih hrest]

theorem getCount_countLine (l : Line) :
    ∀ (m : Counter) (d : Char),
      getCount (countLine m l) d = getCount m d + occOf d l := by
  induction l with
  | nil => intro m d; simp [countLine, occOf]
  | cons c cs ih =>
      intro m d
      have : countLine m (c :: cs) = countLine (addTo m c 1) cs := rfl
      rw [this, ih, getCount_addTo]
      simp [occOf]
      omega

theorem getCount_countFrom (input : List Line) :
    ∀ (m : Counter) (d : Char),
      getCount (countFrom m input) d = getCount m d + countOcc d input := by
  induction input with
  | nil => intro m d; simp [countFrom, countOcc]
  | cons l ls ih =>
      intro m d
      have : countFrom m (l :: ls) = countFrom (countLine m l) ls := rfl
      rw [this, ih, getCount_countLine]
      simp [countOcc]
      omega

theorem getCount_count_chars (input : List Line) (d : Char) :
    getCount (count_chars input) d = countOcc d input := by
  simpa [count_chars, getCount] using getCount_countFrom input [] d

theorem nodup_keysOf_countLine (l : Line) :
    ∀ (m : Counter), (keysOf m).Nodup → (keysOf (countLine m l)).Nodup := by
  induction l with
  | nil => intro m hm; exact hm
  | cons c cs ih =>
      intro m hm
      exact ih (addTo m c 1) (nodup_keysOf_addTo c 1 hm)

theorem pos_countLine (l : Line) :
    ∀ (m : Counter), (∀ p ∈ m, 0 < p.2) →
      ∀ p ∈ countLine m l, 0 < p.2 := by
  induction l with
  | nil => intro m hm; exact hm
  | cons c cs ih =>
      intro m hm
      exact ih (addTo m c 1) (pos_addTo hm Nat.one_pos)

theorem nodup_keysOf_countFrom (input : List Line) :
    ∀ (m : Counter), (keysOf m).Nodup → (keysOf (countFrom m input)).Nodup := by
  induction input with
  | nil => intro m hm; exact hm
  | cons l ls ih =>
      intro m hm
      exact ih (countLine m l) (nodup_keysOf_countLine l m hm)

theorem pos_countFrom (input : List Line) :
    ∀ (m : Counter), (∀ p ∈ m, 0 < p.2) →
      ∀ p ∈ countFrom m input, 0 < p.2 := by
  induction input with
  | nil => intro m hm; exact hm
  | cons l ls ih =>
      intro m hm
      exact ih (countLine m l) (pos_countLine l m hm)

theorem nodup_keysOf_count_chars (input : List Line) :
    (keysOf (count_chars input)).Nodup :=
  nodup_keysOf_countFrom input [] (by simp [keysOf])

theorem pos_count_chars (input : List Line) :
    ∀ p ∈ count_chars input, 0 < p.2 :=
  pos_countFrom input [] (by simp)

theorem getCount_mergeCounts (part : Counter) :
    ∀ (acc : Counter), (keysOf part).Nodup → ∀ d,
      getCount (mergeCounts acc part) d = getCount acc d + getCount part d := by
  induction part with
  | nil => intro acc _ d; simp [mergeCounts, getCount]
  | cons p rest ih =>
      intro acc hnd d
      obtain ⟨k, v⟩ := p
      have hkeys : keysOf ((k, v) :: rest) = k :: keysOf rest := rfl
      rw [hkeys, List.nodup_cons] at hnd
      have hstep : mergeCounts acc ((k, v) :: rest)
          = mergeCounts (addTo acc k v) rest := rfl
      rw [hstep, ih (addTo acc k v) hnd.2 d, getCount_addTo]
      have hrhs : getCount ((k, v) :: rest) d
          = if k = d then v else getCount rest d := rfl
      rw [hrhs]
      by_cases hkd : k = d
      · subst hkd
        rw [getCount_eq_zero_of_not_mem hnd.1]
        simp
      · simp [hkd]

theorem nodup_keysOf_mergeCounts (part : Counter) :
    ∀ acc : Counter, (keysOf acc).Nodup →
      (keysOf (mergeCounts acc part)).Nodup := by
  induction part with
  | nil => intro acc h; exact h
  | cons p rest ih =>
      intro acc h
      exact ih (addTo acc p.1 p.2) (nodup_keysOf_addTo _ _ h)

theorem pos_mergeCounts (part : Counter) :
    ∀ acc : Counter, (∀ p ∈ acc, 0 < p.2) → (∀ p ∈ part, 0 < p.2) →
      ∀ p ∈ mergeCounts acc part, 0 < p.2 := by
  induction part with
  | nil => intro acc hacc _; exact hacc
  | cons q rest ih =>
      intro acc hacc hpart
      exact ih (addTo acc q.1 q.2)
        (pos_addTo hacc (hpart q (List.mem_cons_self _ _)))
        (fun r hr => hpart r (List.mem_cons_of_mem _ hr))

theorem chunksOfAux_fuel {α : Type} :
    ∀ (f₁ f₂ bs : Nat) (l : List α), l.length ≤ f₁ → l.length ≤ f₂ →
      chunksOfAux f₁ bs l = chunksOfAux f₂ bs l := by
  intro f₁
  induction f₁ with
  | zero =>
      intro f₂ bs l h1 _
      have hl : l = [] := List.length_eq_zero.mp (Nat.le_zero.mp h1)
      subst hl
      cases f₂ <;> simp [chunksOfAux]
  | succ f₁ ih =>
      intro f₂ bs l h1 h2
      cases f₂ with
      | zero =>
          have hl : l = [] := List.length_eq_zero.mp (Nat.le_zero.mp h2)
          subst hl
          simp [chunksOfAux]
      | succ f₂ =>
          by_cases hc : bs = 0 ∨ l.length = 0
          · simp only [chunksOfAux, if_pos hc]
          · simp only [chunksOfAux, if_neg hc]
            have hbs : bs ≠ 0 := fun h => hc (Or.inl h)
            have hll : l.length ≠ 0 := fun h => hc (Or.inr h)
            have hd1 : (l.drop bs).length ≤ f₁ := by
              rw [List.length_drop]; omega
            have hd2 : (l.drop bs).length ≤ f₂ := by
              rw [List.length_drop]; omega
            rw [ih f₂ bs (l.drop bs) hd1 hd2]

theorem chunksOf_eq {α : Type} (bs : Nat) (l : List α) :
    chunksOf bs l =
      if bs = 0 ∨ l.length = 0 then []
      else l.take bs :: chunksOf bs (l.drop bs) := by
  unfold chunksOf
  cases hn : l.length with
  | zero =>
      rw [if_pos (Or.inr rfl)]
      rfl
  | succ k =>
      by_cases hbs : bs = 0
      · rw [if_pos (Or.inl hbs)]
        simp only [chunksOfAux]
        rw [if_pos (Or.inl hbs)]
      · have hcond : ¬ (bs = 0 ∨ k + 1 = 0) := by omega
        rw [if_neg hcond]
        simp only [chunksOfAux]
        have hcond2 : ¬ (bs = 0 ∨ l.length = 0) := by omega
        rw [if_neg hcond2]
        congr 1
        apply chunksOfAux_fuel
        · rw [List.length_drop]; omega
        · exact Nat.le_refl _

theorem chunksOf_nil {α : Type} (bs : Nat) :
    chunksOf bs ([] : List α) = [] := rfl

theorem chunksOf_cons {α : Type} {bs : Nat} (hbs : 0 < bs) {l : List α}
    (hl : l ≠ []) :
    chunksOf bs l = l.take bs :: chunksOf bs (l.drop bs) := by
  rw [chunksOf_eq]
  have h1 : ¬ bs = 0 := Nat.pos_iff_ne_zero.mp hbs
  have h2 : ¬ l.length = 0 := by
    simpa [List.length_eq_zero] using hl
  simp [h1, h2]

theorem chunksOf_induction {α : Type} (bs : Nat) (hbs : 0 < bs)
    (motive : List α → Prop) (hnil : motive [])
    (hcons : ∀ l : List α, l ≠ [] → motive (l.drop bs) → motive l) :
    ∀ l, motive l := by
  intro l
  generalize hn : l.length = n
  induction n using Nat.strong_induction_on generalizing l with
  | _ n ih =>
      cases l with
      | nil => exact hnil
      | cons a t =>
          refine hcons _ (List.cons_ne_nil a t) ?_
          refine ih ((a :: t).drop bs).length ?_ _ rfl
          subst hn
          simp only [List.length_drop]
          have : 0 < (a :: t).length := by simp
          omega

theorem chunksOf_flatten {α : Type} {bs : Nat} (hbs : 0 < bs) (l : List α) :
    (chunksOf bs l).flatten = l := by
  refine chunksOf_induction bs hbs
    (fun l => (chunksOf bs l).flatten = l) ?_ ?_ l
  · simp [chunksOf_nil]
  · intro l hl ih
    rw [chunksOf_cons hbs hl]
    simp [ih, List.take_append_drop]

theorem chunksOf_length_mul {α : Type} {bs : Nat} (hbs : 0 < bs) (l : List α) :
    bs * (chunksOf bs l).length < l.length + bs := by
  refine chunksOf_induction bs hbs
    (fun l => bs * (chunksOf bs l).length < l.length + bs) ?_ ?_ l
  · simp [chunksOf_nil]
    omega
  · intro l hl ih
    rw [chunksOf_cons hbs hl]
    have hlen : 0 < l.length := List.length_pos.mpr hl
    rcases Nat.lt_or_ge l.length bs with hsm | hge
    · have hdrop : l.drop bs = [] := List.drop_eq_nil_of_le (Nat.le_of_lt hsm)
      rw [hdrop, chunksOf_nil]
      simp
      omega
    · rw [List.length_drop] at ih
      rw [List.length_cons, Nat.mul_succ]
      generalize hA : bs * (chunksOf bs (l.drop bs)).length = A at ih ⊢
      omega

theorem chunksOf_length_le {α : Type} {bs n : Nat} (hbs : 0 < bs) (l : List α)
    (h : l.length ≤ n * bs) : (chunksOf bs l).length ≤ n := by
  have h1 := chunksOf_length_mul hbs l
  rcases le_or_lt (chunksOf bs l).length n with hle | hlt
  · exact hle
  · exfalso
    have habs : bs * (chunksOf bs l).length < bs * (chunksOf bs l).length :=
      calc bs * (chunksOf bs l).length < l.length + bs := h1
        _ ≤ n * bs + bs := Nat.add_le_add_right h bs
        _ = (n + 1) * bs := by rw [Nat.add_mul, Nat.one_mul]
        _ ≤ (chunksOf bs l).length * bs := Nat.mul_le_mul_right bs hlt
        _ = bs * (chunksOf bs l).length := Nat.mul_comm _ _
    exact Nat.lt_irrefl _ habs

theorem chunksOf_dropLast_length {α : Type} {bs : Nat} (hbs : 0 < bs)
    (l : List α) : ∀ c ∈ (chunksOf bs l).dropLast, c.length = bs := by
  refine chunksOf_induction bs hbs
    (fun l => ∀ c ∈ (chunksOf bs l).dropLast, c.length = bs) ?_ ?_ l
  · simp [chunksOf_nil]
  · intro l hl ih c hc
    rw [chunksOf_cons hbs hl] at hc
    by_cases hd : chunksOf bs (l.drop bs) = []
    · rw [hd] at hc
      simp at hc
    · rw [List.dropLast_cons_of_ne_nil hd] at hc
      rcases List.mem_cons.mp hc with h | h
      · subst h
        have hne : l.drop bs ≠ [] := by
          intro h0
          rw [h0, chunksOf_nil] at hd
          exact hd rfl
        have hble : bs ≤ l.length := by
          by_contra hgt
          push_neg at hgt
          exact hne (List.drop_eq_nil_of_le (Nat.le_of_lt hgt))
        simp [List.length_take, Nat.min_eq_left hble]
      · exact ih c h

theorem chunksOf_mem_length {α : Type} {bs : Nat} (hbs : 0 < bs) (l : List α) :
    ∀ c ∈ chunksOf bs l, 0 < c.length ∧ c.length ≤ bs := by
  refine chunksOf_induction bs hbs
    (fun l => ∀ c ∈ chunksOf bs l, 0 < c.length ∧ c.length ≤ bs) ?_ ?_ l
  · simp [chunksOf_nil]
  · intro l hl ih c hc
    rw [chunksOf_cons hbs hl] at hc
    rcases List.mem_cons.mp hc with h | h
    · subst h
      have hlen : 0 < l.length := List.length_pos.mpr hl
      constructor
      · simp [List.length_take]
        omega
      · simp [List.length_take]
    · exact ih c h

theorem getCount_foldl_merge (chs : List (List Line)) :
    ∀ (acc : Counter) (d : Char),
      getCount (chs.foldl (fun acc chunk => mergeCounts acc (count_chars chunk)) acc) d
        = getCount acc d + (chs.map (fun ch => countOcc d ch)).sum := by
  induction chs with
  | nil => intro acc d; simp
  | cons ch chs ih =>
      intro acc d
      have hstep : (ch :: chs).foldl
            (fun acc chunk => mergeCounts acc (count_chars chunk)) acc
          = chs.foldl (fun acc chunk => mergeCounts acc (count_chars chunk))
              (mergeCounts acc (count_chars ch)) := rfl
      rw [hstep, ih,
        getCount_mergeCounts (count_chars ch) acc (nodup_keysOf_count_chars ch) d,
        getCount_count_chars]
      simp
      omega

theorem pos_foldl_merge (chs : List (List Line)) :
    ∀ acc : Counter, (∀ p ∈ acc, 0 < p.2) →
      ∀ p ∈ chs.foldl (fun acc chunk => mergeCounts acc (count_chars chunk)) acc,
        0 < p.2 := by
  induction chs with
  | nil => intro acc h; exact h
  | cons ch chs ih =>
      intro acc h
      exact ih _ (pos_mergeCounts (count_chars ch) acc h (pos_count_chars ch))

theorem nodup_foldl_merge (chs : List (List Line)) :
    ∀ acc : Counter, (keysOf acc).Nodup →
      (keysOf (chs.foldl (fun acc chunk => mergeCounts acc (count_chars chunk)) acc)).Nodup := by
  induction chs with
  | nil => intro acc h; exact h
  | cons ch chs ih =>
      intro acc h
      exact ih _ (nodup_keysOf_mergeCounts (count_chars ch) acc h)

theorem countOcc_append (d : Char) (l₁ l₂ : List Line) :
    countOcc d (l₁ ++ l₂) = countOcc d l₁ + countOcc d l₂ := by
  simp [countOcc]

theorem countOcc_flatten (d : Char) (chs : List (List Line)) :
    (chs.map (fun ch => countOcc d ch)).sum = countOcc d chs.flatten := by
  induction chs with
  | nil => simp [countOcc]
  | cons ch chs ih =>
      simp only [List.map_cons, List.sum_cons, List.flatten_cons, countOcc_append, ih]

theorem blcksz_pos {L n : Nat} (hL : 0 < L) (hn : 0 < n) :
    0 < (L + n - 1) / n := by
  apply Nat.div_pos ?_ hn
  omega

theorem length_le_mul_blcksz (L n : Nat) (hn : 0 < n) :
    L ≤ n * ((L + n - 1) / n) := by
  have h1 := Nat.div_add_mod (L + n - 1) n
  have h2 : (L + n - 1) % n < n := Nat.mod_lt _ hn
  generalize hr : (L + n - 1) % n = r at h1 h2
  generalize hB : n * ((L + n - 1) / n) = t at h1 ⊢
  omega

theorem count_chars_parallel_eq (input : List Line) (n : Nat)
    (hin : input ≠ []) (hn : 0 < n) :
    ∃ m, count_chars_parallel input n = some m
      ∧ (∀ c, getCount m c = getCount (count_chars input) c)
      ∧ (∀ p ∈ m, 0 < p.2) ∧ (keysOf m).Nodup := by
  have hL : 0 < input.length := List.length_pos.mpr hin
  have hB : 0 < (input.length + n - 1) / n := blcksz_pos hL hn
  have hB' : ¬ ((input.length + n - 1) / n = 0) := Nat.pos_iff_ne_zero.mp hB
  refine ⟨(chunksOf ((input.length + n - 1) / n) input).foldl
      (fun acc chunk => mergeCounts acc (count_chars chunk)) [], ?_, ?_, ?_, ?_⟩
  · simp [count_chars_parallel, hB']
  · intro c
    rw [getCount_foldl_merge, countOcc_flatten, chunksOf_flatten hB input,
      getCount_count_chars]
    simp [getCount]
  · exact pos_foldl_merge _ [] (by simp)
  · exact nodup_foldl_merge _ [] (by simp [keysOf])

theorem count_chars_parallel_some {input : List Line} {n : Nat} {m : Counter}
    (h : count_chars_parallel input n = some m) :
    (∀ c, getCount m c = getCount (count_chars input) c)
      ∧ (∀ p ∈ m, 0 < p.2) ∧ (keysOf m).Nodup := by
  unfold count_chars_parallel at h
  by_cases hB : (input.length + n - 1) / n = 0
  · rw [if_pos hB] at h
    cases h
  · rw [if_neg hB] at h
    have hBpos : 0 < (input.length + n - 1) / n := Nat.pos_of_ne_zero hB
    injection h with h
    subst h
    refine ⟨?_, pos_foldl_merge _ [] (by simp),
      nodup_foldl_merge _ [] (by simp [keysOf])⟩
    intro c
    rw [getCount_foldl_merge, countOcc_flatten, chunksOf_flatten hBpos input,
      getCount_count_chars]
    simp [getCount]

theorem runReruns_of_some {input : List Line} {n : Nat} {m : Counter}
    (h : count_chars_parallel input n = some m) :
    ∀ k, runReruns input n k = (k, some (if k = 0 then none else some m)) := by
  intro k
  induction k with
  | zero => rfl
  | succ k ih =>
      have hstep : runReruns input n (k + 1)
          = match runReruns input n k with
            | (calls, none) => (calls, none)
            | (calls, some _) =>
                match count_chars_parallel input n with
                | none => (calls + 1, none)
                | some m => (calls + 1, some (some m)) := rfl
      rw [hstep, ih, h]
      simp

theorem benchmark_eq {input : List Line} {n : Nat} {m : Counter}
    (h : count_chars_parallel input n = some m) {k : Nat} (hk : 0 < k) :
    benchmark input n k = some m := by
  unfold benchmark
  rw [runReruns_of_some h k]
  have hk0 : ¬ k = 0 := Nat.pos_iff_ne_zero.mp hk
  simp [hk0]

theorem runReruns_some {input : List Line} {n : Nat} :
    ∀ {k : Nat} {m : Counter}, (runReruns input n k).2 = some (some m) →
      count_chars_parallel input n = some m := by
  intro k
  induction k with
  | zero => intro m h; simp [runReruns] at h
  | succ k ih =>
      intro m h
      have hstep : runReruns input n (k + 1)
          = match runReruns input n k with
            | (calls, none) => (calls, none)
            | (calls, some _) =>
                match count_chars_parallel input n with
                | none => (calls + 1, none)
                | some m => (calls + 1, some (some m)) := rfl
      rcases hs : runReruns input n k with ⟨calls, st⟩
      rw [hstep, hs] at h
      rcases st with _ | prev
      · simp at h
      · rcases hp : count_chars_parallel input n with _ | mm
        · rw [hp] at h; simp at h
        · rw [hp] at h
          simp at h
          exact congrArg some h

theorem benchmark_some {input : List Line} {n r : Nat} {m : Counter}
    (h : benchmark input n r = some m) :
    count_chars_parallel input n = some m := by
  unfold benchmark at h
  rcases hs : runReruns input n r with ⟨calls, st⟩
  rw [hs] at h
  rcases st with _ | st'
  · simp at h
  · rcases st' with _ | mm
    · simp at h
    · simp at h
      subst h
      exact runReruns_some (by rw [hs])

theorem sweepLoop_ok {input : List Line} {reruns : Nat}
    (hin : input ≠ []) (hr : 0 < reruns) :
    ∀ k, ∃ st,
      sweepLoop input reruns k
        = ((List.range k).map (fun i => i + 1),
           (List.range k).map (fun i => OutEvent.timing (i + 1)),
           some st)
      ∧ (k = 0 → st = none)
      ∧ (0 < k → ∃ m, count_chars_parallel input k = some m ∧ st = some m) := by
  intro k
  induction k with
  | zero =>
      exact ⟨none, rfl, fun _ => rfl, fun h => absurd h (by omega)⟩
  | succ k ih =>
      obtain ⟨st, heq, _, _⟩ := ih
      obtain ⟨m, hm, _, _, _⟩ :=
        count_chars_parallel_eq input (k + 1) hin (Nat.succ_pos k)
      have hb : benchmark input (k + 1) reruns = some m := benchmark_eq hm hr
      refine ⟨some m, ?_, fun h => absurd h (by omega), fun _ => ⟨m, hm, rfl⟩⟩
      have hstep : sweepLoop input reruns (k + 1)
          = match sweepLoop input reruns k with
            | (calls, evs, none) => (calls, evs, none)
            | (calls, evs, some _) =>
                match benchmark input (k + 1) reruns with
                | none => (calls ++ [k + 1], evs, none)
                | some m =>
                    (calls ++ [k + 1], evs ++ [OutEvent.timing (k + 1)],
                      some (some m)) := rfl
      rw [hstep, heq, hb]
      simp [List.range_succ]

theorem benchmark_all_ok {input : List Line} {maxT reruns : Nat}
    (hin : input ≠ []) (hM : 0 < maxT) (hr : 0 < reruns) :
    ∃ m, count_chars_parallel input maxT = some m
      ∧ benchmark_all input maxT reruns
          = ((List.range maxT).map (fun i => OutEvent.timing (i + 1)), some m)
      ∧ (sweepLoop input reruns maxT).1
          = (List.range maxT).map (fun i => i + 1) := by
  obtain ⟨st, heq, _, hpos⟩ := sweepLoop_ok hin hr maxT
  obtain ⟨m, hm, hst⟩ := hpos hM
  subst hst
  refine ⟨m, hm, ?_, by rw [heq]⟩
  unfold benchmark_all
  rw [heq]

theorem sweepLoop_events_timing (input : List Line) (r : Nat) :
    ∀ k, ∀ e ∈ (sweepLoop input r k).2.1, ∃ t, e = OutEvent.timing t := by
  intro k
  induction k with
  | zero => intro e he; simp [sweepLoop] at he
  | succ k ih =>
      intro e he
      rcases hs : sweepLoop input r k with ⟨calls, evs, st⟩
      have ih' : ∀ e ∈ evs, ∃ t, e = OutEvent.timing t := by
        intro e he'
        exact ih e (by rw [hs]; exact he')
      have hstep : sweepLoop input r (k + 1)
          = match sweepLoop input r k with
            | (calls, evs, none) => (calls, evs, none)
            | (calls, evs, some _) =>
                match benchmark input (k + 1) r with
                | none => (calls ++ [k + 1], evs, none)
                | some m =>
                    (calls ++ [k + 1], evs ++ [OutEvent.timing (k + 1)],
                      some (some m)) := rfl
      rw [hstep, hs] at he
      rcases st with _ | prev
      · exact ih' e he
      · rcases hb : benchmark input (k + 1) r with _ | m
        · rw [hb] at he
          exact ih' e he
        · rw [hb] at he
          rcases List.mem_append.mp he with h | h
          · exact ih' e h
          · rw [List.mem_singleton] at h
            exact ⟨k + 1, h⟩

theorem benchmark_all_events (input : List Line) (maxT r : Nat) :
    ∀ e ∈ (benchmark_all input maxT r).1, ∃ t, e = OutEvent.timing t := by
  intro e he
  unfold benchmark_all at he
  rcases hs : sweepLoop input r maxT with ⟨calls, evs, st⟩
  have hev := sweepLoop_events_timing input r maxT
  rw [hs] at hev he
  rcases st with _ | st'
  · exact hev e he
  · rcases st' with _ | m
    · exact hev e he
    · exact hev e he

theorem sweepLoop_some {input : List Line} {r : Nat} :
    ∀ {k : Nat} {m : Counter}, (sweepLoop input r k).2.2 = some (some m) →
      ∃ j, benchmark input j r = some m := by
  intro k
  induction k with
  | zero => intro m h; simp [sweepLoop] at h
  | succ k ih =>
      intro m h
      rcases hs : sweepLoop input r k with ⟨calls, evs, st⟩
      have hstep : sweepLoop input r (k + 1)
          = match sweepLoop input r k with
            | (calls, evs, none) => (calls, evs, none)
            | (calls, evs, some _) =>
                match benchmark input (k + 1) r with
                | none => (calls ++ [k + 1], evs, none)
                | some m =>
                    (calls ++ [k + 1], evs ++ [OutEvent.timing (k + 1)],
                      some (some m)) := rfl
      rw [hstep, hs] at h
      rcases st with _ | prev
      · simp at h
      · rcases hb : benchmark input (k + 1) r with _ | mm
        · rw [hb] at h; simp at h
        · rw [hb] at h
          simp at h
          subst h
          exact ⟨k + 1, hb⟩

theorem benchmark_all_some {input : List Line} {mx r : Nat}
    {evs : List OutEvent} {m : Counter}
    (h : benchmark_all input mx r = (evs, some m)) :
    ∃ j, benchmark input j r = some m := by
  unfold benchmark_all at h
  rcases hs : sweepLoop input r mx with ⟨calls, evs', st⟩
  rw [hs] at h
  rcases st with _ | st'
  · simp at h
  · rcases st' with _ | mm
    · simp at h
    · simp at h
      obtain ⟨_, h2⟩ := h
      subst h2
      exact sweepLoop_some (by rw [hs])

theorem splitNl_ne_nil (cs : List Char) : splitNl cs ≠ [] := by
  cases cs with
  | nil => simp [splitNl]
  | cons c cs =>
      by_cases h : c = '\n'
      · simp [splitNl, h]
      · rw [show splitNl (c :: cs)
            = (if c = '\n' then [] :: splitNl cs else
                match splitNl cs with
                | [] => [[c]]
                | s :: ss => (c :: s) :: ss) from rfl, if_neg h]
        cases splitNl cs <;> simp

theorem not_nl_mem_splitNl (cs : List Char) :
    ∀ s ∈ splitNl cs, ('\n' : Char) ∉ s := by
  induction cs with
  | nil =>
      intro s hs
      rw [show splitNl [] = [[]] from rfl] at hs
      rw [List.mem_singleton] at hs
      subst hs
      simp
  | cons c cs ih =>
      intro s hs
      by_cases h : c = '\n'
      · rw [show splitNl (c :: cs) = [] :: splitNl cs from by simp [splitNl, h]] at hs
        rcases List.mem_cons.mp hs with h' | h'
        · subst h'; simp
        · exact ih s h'
      · rcases hhead : splitNl cs with _ | ⟨s₀, ss⟩
        · exact absurd hhead (splitNl_ne_nil cs)
        · rw [show splitNl (c :: cs) = (c :: s₀) :: ss from by
            simp [splitNl, h, hhead]] at hs
          rcases List.mem_cons.mp hs with h' | h'
          · subst h'
            intro hmem
            rcases List.mem_cons.mp hmem with h'' | h''
            · exact h h''.symm
            · exact ih s₀ (by rw [hhead]; exact List.mem_cons_self _ _) h''
          · exact ih s (by rw [hhead]; exact List.mem_cons_of_mem _ h')

theorem stripCR_subset {l : List Char} {c : Char} (h : c ∈ stripCR l) :
    c ∈ l := by
  unfold stripCR at h
  split at h
  · exact List.dropLast_subset l h
  · exact h

theorem not_nl_mem_load_file (contents : List Char) :
    ∀ l ∈ load_file contents, ('\n' : Char) ∉ l := by
  intro l hl
  unfold load_file at hl
  rcases List.mem_append.mp hl with h | h
  · obtain ⟨s, hs, rfl⟩ := List.mem_map.mp h
    intro hmem
    have hs' : s ∈ splitNl contents := List.dropLast_subset _ hs
    exact not_nl_mem_splitNl contents s hs' (stripCR_subset hmem)
  · rcases hlast : (splitNl contents).getLast? with _ | s
    · rw [hlast] at h
      simp at h
    · rcases s with _ | ⟨c0, srest⟩
      · rw [hlast] at h
        simp at h
      · rw [hlast] at h
        rw [List.mem_singleton] at h
        subst h
        have hmem0 : (c0 :: srest) ∈ (splitNl contents).getLast? := by
          rw [Option.mem_def, hlast]
        obtain ⟨hne2, hx⟩ := List.mem_getLast?_eq_getLast hmem0
        have hmem : (c0 :: srest) ∈ splitNl contents := by
          rw [hx]
          exact List.getLast_mem hne2
        exact not_nl_mem_splitNl contents _ hmem

theorem occOf_eq_zero {c : Char} {l : Line} (h : c ∉ l) : occOf c l = 0 := by
  induction l with
  | nil => rfl
  | cons d t ih =>
      have hdc : ¬ d = c := by
        intro hd
        subst hd
        exact h (List.mem_cons_self _ _)
      have ht : c ∉ t := fun hm => h (List.mem_cons_of_mem _ hm)
      simp [occOf, hdc, ih ht]

theorem countOcc_eq_zero {c : Char} {lines : List Line}
    (h : ∀ l ∈ lines, c ∉ l) : countOcc c lines = 0 := by
  induction lines with
  | nil => rfl
  | cons l ls ih =>
      have hstep : countOcc c (l :: ls) = occOf c l + countOcc c ls := by
        simp [countOcc]
      rw [hstep, occOf_eq_zero (h l (List.mem_cons_self _ _)),
        ih (fun l' hl' => h l' (List.mem_cons_of_mem _ hl'))]

theorem splitNl_append_cr_nl (b : List Char) :
    ∀ a : List Char, ('\n' : Char) ∉ a →
      splitNl (a ++ '\r' :: '\n' :: b) = (a ++ ['\r']) :: splitNl b := by
  intro a
  induction a with
  | nil =>
      intro _
      have h1 : ¬ ('\r' : Char) = '\n' := by decide
      have h2 : splitNl ('\n' :: b) = [] :: splitNl b := by
        show (if ('\n' : Char) = '\n' then [] :: splitNl b else
          match splitNl b with
          | [] => [['\n']]
          | s :: ss => ('\n' :: s) :: ss) = [] :: splitNl b
        rw [if_pos rfl]
      have h3 : splitNl ('\r' :: '\n' :: b) = ['\r'] :: splitNl b := by
        show (if ('\r' : Char) = '\n' then [] :: splitNl ('\n' :: b) else
          match splitNl ('\n' :: b) with
          | [] => [['\r']]
          | s :: ss => ('\r' :: s) :: ss) = ['\r'] :: splitNl b
        rw [if_neg h1, h2]
      simpa using h3
  | cons c a ih =>
      intro ha
      have hc : ¬ c = '\n' := by
        intro h
        apply ha
        rw [h]
        exact List.mem_cons_self _ _
      have ha' : ('\n' : Char) ∉ a := fun h => ha (List.mem_cons_of_mem _ h)
      rw [List.cons_append]
      have hsplit : splitNl (c :: (a ++ '\r' :: '\n' :: b))
          = (c :: (a ++ ['\r'])) :: splitNl b := by
        show (if c = '\n' then [] :: splitNl (a ++ '\r' :: '\n' :: b) else
          match splitNl (a ++ '\r' :: '\n' :: b) with
          | [] => [[c]]
          | s :: ss => (c :: s) :: ss) = (c :: (a ++ ['\r'])) :: splitNl b
        rw [if_neg hc, ih ha']
      rw [hsplit, List.cons_append]

theorem stripCR_concat_cr (a : List Char) : stripCR (a ++ ['\r']) = a := by
  unfold stripCR
  rw [List.getLast?_concat, if_pos rfl, List.dropLast_concat]

theorem load_file_cr_nl {a : List Char} (ha : ('\n' : Char) ∉ a)
    (b : List Char) :
    load_file (a ++ '\r' :: '\n' :: b) = a :: load_file b := by
  unfold load_file
  rw [splitNl_append_cr_nl b a ha]
  have hne := splitNl_ne_nil b
  rcases hb : splitNl b with _ | ⟨s₀, ss⟩
  · exact absurd hb hne
  · rw [List.dropLast_cons_of_ne_nil (by simp), List.map_cons,
      stripCR_concat_cr, List.getLast?_cons_cons, List.cons_append]

theorem nl_not_key_count_chars (contents : List Char) :
    ('\n' : Char) ∉ keysOf (count_chars (load_file contents)) := by
  intro hmem
  rw [mem_keysOf_iff_pos (pos_count_chars _), getCount_count_chars,
    countOcc_eq_zero (not_nl_mem_load_file contents)] at hmem
  exact Nat.lt_irrefl 0 hmem

theorem nl_not_key_parallel {contents : List Char} {n : Nat} {m : Counter}
    (h : count_chars_parallel (load_file contents) n = some m) :
    ('\n' : Char) ∉ keysOf m := by
  obtain ⟨hget, hpos, _⟩ := count_chars_parallel_some h
  intro hmem
  rw [mem_keysOf_iff_pos hpos, hget, getCount_count_chars,
    countOcc_eq_zero (not_nl_mem_load_file contents)] at hmem
  exact Nat.lt_irrefl 0 hmem

theorem mainModel_none_events (lines : List Line) (mA rA : Nat) :
    ∀ e ∈ (mainModel lines mA rA none).1,
      e = OutEvent.warnMaxZero ∨ e = OutEvent.warnRerunsZero
        ∨ ∃ t, e = OutEvent.timing t := by
  intro e he
  simp only [mainModel] at he
  rcases hba : benchmark_all lines (if mA = 0 then 1 else mA)
      (if rA = 0 then 1 else rA) with ⟨evs, res⟩
  have hevs := benchmark_all_events lines (if mA = 0 then 1 else mA)
    (if rA = 0 then 1 else rA)
  rw [hba] at he hevs
  have hsplit : e ∈ (if mA = 0 then [OutEvent.warnMaxZero] else [])
      ++ (if rA = 0 then [OutEvent.warnRerunsZero] else []) ++ evs := by
    rcases res with _ | stats
    · exact he
    · simpa only [reporter, List.append_nil] using he
  rcases List.mem_append.mp hsplit with h1 | h1
  · rcases List.mem_append.mp h1 with h2 | h2
    · left
      by_cases hmA : mA = 0
      · rw [if_pos hmA, List.mem_singleton] at h2
        exact h2
      · rw [if_neg hmA] at h2
        simp at h2
    · right; left
      by_cases hrA : rA = 0
      · rw [if_pos hrA, List.mem_singleton] at h2
        exact h2
      · rw [if_neg hrA] at h2
        simp at h2
  · right; right
    exact hevs e h1

/-- Claim C1 counterexample: the claim quantifies over every line
sequence, but on the empty sequence the parallel counter does not return
a mapping at all: BLCKSZ evaluates to 0 and the chunking panics, modelled
by `none`. -/
theorem claim_C1_counterexample :
    count_chars_parallel ([] : List Line) 1 = none := by decide

/-- Claim C1 (amended to non-empty sequences): for every non-empty line
sequence and every thread count of at least 1, `count_chars_parallel`
returns a mapping equal to the one `count_chars` computes on the whole
unpartitioned sequence — the same count on every character and the same
key set. -/
theorem claim_C1_parallel_eq_sequential (input : List Line) (n : Nat)
    (hin : input ≠ []) (hn : 1 ≤ n) :
    ∃ m, count_chars_parallel input n = some m
      ∧ (∀ c, getCount m c = getCount (count_chars input) c)
      ∧ (∀ c, c ∈ keysOf m ↔ c ∈ keysOf (count_chars input)) := by
  obtain ⟨m, hm, hget, hpos, _⟩ := count_chars_parallel_eq input n hin hn
  refine ⟨m, hm, hget, fun c => ?_⟩
  rw [mem_keysOf_iff_pos hpos, mem_keysOf_iff_pos (pos_count_chars input), hget]

/-- Claim C1 witness: the amended equivalence at a concrete input. -/
theorem claim_C1_witness :
    ∃ m, count_chars_parallel [['a', 'b'], ['a']] 2 = some m
      ∧ getCount m 'a' = getCount (count_chars [['a', 'b'], ['a']]) 'a' := by
  obtain ⟨m, hm, hget, _⟩ :=
    claim_C1_parallel_eq_sequential [['a', 'b'], ['a']] 2 (by decide) (by decide)
  exact ⟨m, hm, hget 'a'⟩

/-- Claim C2 concerns a code bug: on an empty input file the chunk size
BLCKSZ = (0 + n - 1) / n evaluates to 0 for every thread count n, and
`slice::chunks(0)` panics, so the program crashes instead of completing
the sweep with an empty mapping.  This theorem evaluates the embedding at
the failing input: the parallel counter, the benchmark runner and the
sweep driver all panic (`none`), and the sweep prints no timing line. -/
theorem claim_C2_empty_input_panics :
    count_chars_parallel ([] : List Line) 3 = none
      ∧ benchmark ([] : List Line) 1 1 = none
      ∧ benchmark_all ([] : List Line) 1 1 = ([], none) := by decide

/-- Claim C3: for a non-empty input of length L and any requested thread
count N of at least 1, the chunking used by `count_chars_parallel`
(chunks of BLCKSZ = (L + N - 1) / N lines, the ceiling of L / N)
partitions the line sequence: concatenating the chunks in order gives
back exactly the input, there are at most N chunks, every chunk except
possibly the last has exactly BLCKSZ lines, and every chunk is non-empty
with at most BLCKSZ lines (so the last may only be shorter). -/
theorem claim_C3_chunking (input : List Line) (n : Nat)
    (hin : input ≠ []) (hn : 1 ≤ n) :
    ((chunksOf ((input.length + n - 1) / n) input).flatten = input)
      ∧ (chunksOf ((input.length + n - 1) / n) input).length ≤ n
      ∧ (∀ c ∈ (chunksOf ((input.length + n - 1) / n) input).dropLast,
          c.length = (input.length + n - 1) / n)
      ∧ (∀ c ∈ chunksOf ((input.length + n - 1) / n) input,
          0 < c.length ∧ c.length ≤ (input.length + n - 1) / n) := by
  have hL : 0 < input.length := List.length_pos.mpr hin
  have hB : 0 < (input.length + n - 1) / n := blcksz_pos hL hn
  exact ⟨chunksOf_flatten hB input,
    chunksOf_length_le hB input (length_le_mul_blcksz input.length n hn),
    chunksOf_dropLast_length hB input,
    chunksOf_mem_length hB input⟩

/-- Claim C3 witness: the chunk partition at a concrete input (three
lines, two threads, so BLCKSZ = 2). -/
theorem claim_C3_witness :
    ((chunksOf ((([['a'], ['b'], ['c']] : List Line).length + 2 - 1) / 2)
        [['a'], ['b'], ['c']]).flatten = [['a'], ['b'], ['c']])
      ∧ (chunksOf ((([['a'], ['b'], ['c']] : List Line).length + 2 - 1) / 2)
          [['a'], ['b'], ['c']]).length ≤ 2 :=
  ⟨(claim_C3_chunking [['a'], ['b'], ['c']] 2 (by decide) (by decide)).1,
   (claim_C3_chunking [['a'], ['b'], ['c']] 2 (by decide) (by decide)).2.1⟩

/-- Claim C4 counterexample: the claim quantifies over every line
sequence, but on the empty sequence the first parallel invocation panics,
so `benchmark` returns no mapping, and with R = 2 requested only one
invocation happens. -/
theorem claim_C4_counterexample :
    benchmark ([] : List Line) 1 1 = none
      ∧ (runReruns ([] : List Line) 1 2).1 = 1 := by decide

/-- Claim C4 (amended to non-empty sequences): for every non-empty line
sequence, thread count N of at least 1 and rerun count R of at least 1,
`benchmark` invokes `count_chars_parallel` exactly R times and returns
the mapping produced by the final invocation, the mappings of the earlier
invocations being discarded (each invocation produces the same mapping,
so no information is lost).  The returned mean duration is wall-clock
behaviour and is outside the embedding. -/
theorem claim_C4_benchmark (input : List Line) (n r : Nat)
    (hin : input ≠ []) (hn : 1 ≤ n) (hr : 1 ≤ r) :
    ∃ m, count_chars_parallel input n = some m
      ∧ (runReruns input n r).1 = r
      ∧ benchmark input n r = some m := by
  obtain ⟨m, hm, _, _, _⟩ := count_chars_parallel_eq input n hin hn
  refine ⟨m, hm, ?_, benchmark_eq hm hr⟩
  rw [runReruns_of_some hm r]

/-- Claim C4 witness: concrete benchmark run with two reruns. -/
theorem claim_C4_witness :
    ∃ m, count_chars_parallel [['a']] 1 = some m
      ∧ (runReruns [['a']] 1 2).1 = 2
      ∧ benchmark [['a']] 1 2 = some m :=
  claim_C4_benchmark [['a']] 1 2 (by decide) (by decide) (by decide)

/-- Claim C5 counterexample: the claim quantifies over every line
sequence, but on the empty sequence the sweep panics at thread count 1
before printing any timing line and returns no mapping. -/
theorem claim_C5_counterexample :
    benchmark_all ([] : List Line) 2 1 = ([], none) := by decide

/-- Claim C5 (amended to non-empty sequences): for every non-empty line
sequence, maximum thread count M of at least 1 and rerun count R of at
least 1, the sweep driver invokes the benchmark runner once per thread
count 1, 2, ..., M in strictly increasing order (the list of thread
counts passed to `benchmark`), prints exactly one timing line per thread
count in that same order (`OutEvent.timing n` modelling the line
reporting the average duration with n threads), and returns the mapping
of the final, M-th iteration (the parallel count at M threads). -/
theorem claim_C5_sweep (input : List Line) (maxT r : Nat)
    (hin : input ≠ []) (hM : 1 ≤ maxT) (hr : 1 ≤ r) :
    ∃ m, count_chars_parallel input maxT = some m
      ∧ (sweepLoop input r maxT).1 = (List.range maxT).map (fun i => i + 1)
      ∧ benchmark_all input maxT r
          = ((List.range maxT).map (fun i => OutEvent.timing (i + 1)), some m) := by
  obtain ⟨m, hm, hba, hcalls⟩ := benchmark_all_ok hin hM hr
  exact ⟨m, hm, hcalls, hba⟩

/-- Claim C5 witness: concrete sweep with two thread counts. -/
theorem claim_C5_witness :
    ∃ m, count_chars_parallel [['a', 'b']] 2 = some m
      ∧ (sweepLoop [['a', 'b']] 1 2).1 = (List.range 2).map (fun i => i + 1)
      ∧ benchmark_all [['a', 'b']] 2 1
          = ((List.range 2).map (fun i => OutEvent.timing (i + 1)), some m) :=
  claim_C5_sweep [['a', 'b']] 2 1 (by decide) (by decide) (by decide)

/-- Claim C6: when the stats rank K is requested the reporter turns the
final mapping into its list of (character, count) pairs, sorts it
ascending by count (below: an ascending-by-count permutation l of the
mapping), reverses it, takes the first max(K, 1) entries and prints each
as a stats-entry line carrying the character and its count (after the
header line, preceded by a warning when K = 0); when the stats flag is
absent the reporter prints nothing, and a program run without the flag
prints only warning and timing lines. -/
theorem claim_C6_reporter (stats : Counter) (K : Nat) (lines : List Line)
    (mA rA : Nat) :
    (∃ l, stats.Perm l ∧ l.Pairwise countLE
        ∧ reporter stats (some K)
            = (if K = 0 then [OutEvent.warnStatsZero] else [])
              ++ [OutEvent.statsHeader]
              ++ (l.reverse.take (Nat.max K 1)).map
                  (fun p => OutEvent.statsEntry p.1 p.2))
      ∧ reporter stats none = []
      ∧ (∀ e ∈ (mainModel lines mA rA none).1,
          e = OutEvent.warnMaxZero ∨ e = OutEvent.warnRerunsZero
            ∨ ∃ t, e = OutEvent.timing t) :=
  ⟨⟨sortByCount stats, (List.perm_insertionSort countLE stats).symm,
      List.sorted_insertionSort countLE stats, rfl⟩,
   rfl, mainModel_none_events lines mA rA⟩

/-- Claim C6 witness: the reporter at concrete inputs — nothing printed
without the flag, and a concrete timing line of a flagless run. -/
theorem claim_C6_witness :
    reporter [('a', 2), ('b', 3)] none = []
      ∧ (OutEvent.timing 1 = OutEvent.warnMaxZero
          ∨ OutEvent.timing 1 = OutEvent.warnRerunsZero
          ∨ ∃ t, OutEvent.timing 1 = OutEvent.timing t) :=
  ⟨(claim_C6_reporter [('a', 2), ('b', 3)] 2 [['a']] 1 1).2.1,
   (claim_C6_reporter [('a', 2), ('b', 3)] 2 [['a']] 1 1).2.2
     (OutEvent.timing 1) (by decide)⟩

theorem mainModel_eq (lines : List Line) (mA rA : Nat) (s : Option Nat) :
    mainModel lines mA rA s
      = ((if mA = 0 then [OutEvent.warnMaxZero] else [])
          ++ (if rA = 0 then [OutEvent.warnRerunsZero] else [])
          ++ (benchmark_all lines (if mA = 0 then 1 else mA)
               (if rA = 0 then 1 else rA)).1
          ++ (match (benchmark_all lines (if mA = 0 then 1 else mA)
               (if rA = 0 then 1 else rA)).2 with
              | none => []
              | some stats => reporter stats s),
         match (benchmark_all lines (if mA = 0 then 1 else mA)
               (if rA = 0 then 1 else rA)).2 with
         | none => none
         | some _ => some ()) := by
  simp only [mainModel]
  rcases benchmark_all lines (if mA = 0 then 1 else mA)
      (if rA = 0 then 1 else rA) with ⟨evs, res⟩
  rcases res with _ | stats <;> simp

/-- Claim C7 counterexample: with an empty input file and the max option
supplied as 0 the warning is printed and the value corrected to 1, but
the program then panics inside the sweep instead of completing normally
(the code panics for the empty file at every thread count). -/
theorem claim_C7_counterexample :
    (mainModel ([] : List Line) 0 1 none).1 = [OutEvent.warnMaxZero]
      ∧ (mainModel ([] : List Line) 0 1 none).2 = none := by decide

/-- Claim C7 (amended): if the max or the reruns option is supplied as 0,
the program corrects the value to 1, prints a warning line to standard
output, and from then on behaves exactly as if the value 1 had been
supplied: the printed output is the value-1 output with the warning line
inserted after any earlier warnings, the outcome is the value-1 outcome
— so it completes normally whenever the value-1 run does, in particular
on every non-empty input file. -/
theorem claim_C7_zero_args (lines : List Line) (m r : Nat) (s : Option Nat) :
    ((mainModel lines 0 r s).1
        = OutEvent.warnMaxZero :: (mainModel lines 1 r s).1
      ∧ (mainModel lines 0 r s).2 = (mainModel lines 1 r s).2)
    ∧ (∃ pre post,
        pre = (if m = 0 then [OutEvent.warnMaxZero] else [])
        ∧ (mainModel lines m 1 s).1 = pre ++ post
        ∧ (mainModel lines m 0 s).1 = pre ++ OutEvent.warnRerunsZero :: post
        ∧ (mainModel lines m 0 s).2 = (mainModel lines m 1 s).2)
    ∧ (lines ≠ [] →
        (mainModel lines 0 r s).2 = some ()
          ∧ (mainModel lines m 0 s).2 = some ()) := by
  refine ⟨⟨?_, ?_⟩, ?_, ?_⟩
  · rw [mainModel_eq, mainModel_eq]
    simp
  · rw [mainModel_eq, mainModel_eq]
    simp
  · rw [mainModel_eq, mainModel_eq]
    refine ⟨if m = 0 then [OutEvent.warnMaxZero] else [],
      (benchmark_all lines (if m = 0 then 1 else m) 1).1
        ++ (match (benchmark_all lines (if m = 0 then 1 else m) 1).2 with
            | none => []
            | some stats => reporter stats s), rfl, ?_, ?_, ?_⟩
    · simp
    · simp
    · simp
  · intro hne
    have hr' : 0 < (if r = 0 then 1 else r) := by
      by_cases h : r = 0
      · simp [h]
      · simp [h]
        omega
    have hM' : 0 < (if m = 0 then 1 else m) := by
      by_cases h : m = 0
      · simp [h]
      · simp [h]
        omega
    obtain ⟨m1, _, hba1, _⟩ := benchmark_all_ok hne Nat.one_pos hr'
    obtain ⟨m2, _, hba2, _⟩ := benchmark_all_ok hne hM' Nat.one_pos
    constructor
    · rw [mainModel_eq]
      have e1 : (if (0 : Nat) = 0 then 1 else 0) = 1 := rfl
      rw [e1, hba1]
    · rw [mainModel_eq]
      have e1 : (if (0 : Nat) = 0 then 1 else 0) = 1 := rfl
      rw [e1, hba2]

/-- Claim C7 witness: the zero-corrected runs at a concrete non-empty
input. -/
theorem claim_C7_witness :
    (mainModel [['x']] 0 3 none).1
        = OutEvent.warnMaxZero :: (mainModel [['x']] 1 3 none).1
      ∧ ((mainModel [['x']] 0 3 none).2 = some ()
          ∧ (mainModel [['x']] 2 0 none).2 = some ()) :=
  ⟨(claim_C7_zero_args [['x']] 2 3 none).1.1,
   (claim_C7_zero_args [['x']] 2 3 none).2.2 (by decide)⟩

/-- Claim C8: `count_chars` maps every character to the number of times
it occurs across all characters of all strings of the sequence (counted
per character — lines are modelled as sequences of Unicode characters,
not bytes), a key is present exactly for the characters that actually
occur, and the empty sequence yields the empty mapping.  The function is
a pure fold in the embedding, matching the no-side-effects contract. -/
theorem claim_C8_count_chars (input : List Line) (c : Char) :
    getCount (count_chars input) c = countOcc c input
      ∧ (c ∈ keysOf (count_chars input) ↔ 0 < countOcc c input)
      ∧ count_chars ([] : List Line) = [] := by
  refine ⟨getCount_count_chars input c, ?_, rfl⟩
  rw [mem_keysOf_iff_pos (pos_count_chars input), getCount_count_chars]

/-- Claim C9: the line loader strips the line terminators — a line
terminated by carriage return plus newline is loaded without either
character — every loaded line is free of newline characters, and the
newline character is never a key of the mapping of `count_chars` or of
any mapping returned by `count_chars_parallel` on loaded lines. -/
theorem claim_C9_line_terminators (contents a b : List Char) (n : Nat) :
    (('\n' : Char) ∉ a →
        load_file (a ++ '\r' :: '\n' :: b) = a :: load_file b)
      ∧ (∀ l ∈ load_file contents, ('\n' : Char) ∉ l)
      ∧ ('\n' : Char) ∉ keysOf (count_chars (load_file contents))
      ∧ (∀ m, count_chars_parallel (load_file contents) n = some m →
          ('\n' : Char) ∉ keysOf m) :=
  ⟨fun ha => load_file_cr_nl ha b,
   not_nl_mem_load_file contents,
   nl_not_key_count_chars contents,
   fun _ hm => nl_not_key_parallel hm⟩

/-- Claim C9 witness: terminator stripping and newline-free keys at a
concrete file content. -/
theorem claim_C9_witness :
    load_file (['x'] ++ '\r' :: '\n' :: ['y']) = ['x'] :: load_file ['y']
      ∧ ('\n' : Char) ∉ keysOf (count_chars (load_file ['x', '\r', '\n', 'y']))
      ∧ ('\n' : Char) ∉ keysOf [('x', 1), ('y', 1)] :=
  ⟨(claim_C9_line_terminators ['x', '\r', '\n', 'y'] ['x'] ['y'] 1).1 (by decide),
   (claim_C9_line_terminators ['x', '\r', '\n', 'y'] ['x'] ['y'] 1).2.2.1,
   (claim_C9_line_terminators ['x', '\r', '\n', 'y'] ['x'] ['y'] 1).2.2.2
     [('x', 1), ('y', 1)] (by decide)⟩

/-- Claim C10: every mapping the program produces — from `count_chars`,
from a successful `count_chars_parallel`, `benchmark` or
`benchmark_all` — maps each of its keys to a strictly positive count: an
entry is only ever created for a character that occurs. -/
theorem claim_C10_positive_counts (input : List Line) (p : Char × Nat) :
    (p ∈ count_chars input → 0 < p.2)
      ∧ (∀ n m, count_chars_parallel input n = some m → p ∈ m → 0 < p.2)
      ∧ (∀ n r m, benchmark input n r = some m → p ∈ m → 0 < p.2)
      ∧ (∀ mx r evs m, benchmark_all input mx r = (evs, some m) →
          p ∈ m → 0 < p.2) := by
  refine ⟨fun hp => pos_count_chars input p hp, ?_, ?_, ?_⟩
  · intro n m hm hp
    exact (count_chars_parallel_some hm).2.1 p hp
  · intro n r m hm hp
    exact (count_chars_parallel_some (benchmark_some hm)).2.1 p hp
  · intro mx r evs m hm hp
    obtain ⟨j, hj⟩ := benchmark_all_some hm
    exact (count_chars_parallel_some (benchmark_some hj)).2.1 p hp

/-- Claim C10 witness: positivity extracted at concrete mappings produced
by `count_chars` and by `count_chars_parallel`. -/
theorem claim_C10_witness :
    0 < (('a', 2) : Char × Nat).2 ∧ 0 < (('x', 1) : Char × Nat).2 :=
  ⟨(claim_C10_positive_counts [['a'], ['a']] ('a', 2)).1 (by decide),
   (claim_C10_positive_counts [['x']] ('x', 1)).2.1 1 [('x', 1)]
     (by decide) (by decide)⟩

end CharBench
